import Mathlib

/-!
Shallow embedding of the signal-analysis core of the soundtrack-analyzer
repository (src/soundtrack_analyzer): `patch_signal`, `get_bark_fraction`,
`read_sound_file` and the per-file duration computation of `analyze_file`
from analyze.py, and `write_csv` from utils.py.  Python floats are modelled
as exact rationals (ℚ), numpy int16 samples as integers, and the Python
exceptions the code can raise (ZeroDivisionError, IndexError, ValueError)
as an explicit error type.
-/

namespace SoundtrackAnalyzer

/-- Python exceptions that the analysis code can raise. -/
inductive PyError where
  | valueError (msg : String)
  | zeroDivision
  | indexError
  deriving DecidableEq

instance {ε α : Type} [DecidableEq ε] [DecidableEq α] : DecidableEq (Except ε α) := fun a b =>
  match a, b with
  | .ok x, .ok y => decidable_of_iff (x = y) ⟨fun h => by rw [h], fun h => by injection h⟩
  | .error x, .error y => decidable_of_iff (x = y) ⟨fun h => by rw [h], fun h => by injection h⟩
  | .ok _, .error _ => .isFalse (fun h => Except.noConfusion h)
  | .error _, .ok _ => .isFalse (fun h => Except.noConfusion h)

/-- Number of samples strictly above the cutoff: `np.count_nonzero(signal > cutoff)`. -/
def countHigh (signal : List ℤ) (cutoff : ℤ) : ℕ :=
  signal.countP (fun v => decide (v > cutoff))

/-- `np.diff` on a list of indices: successive differences. -/
def diffList : List ℕ → List ℕ
  | a :: b :: t => (b - a) :: diffList (b :: t)
  | _ => []

/-- Positions of the `true` entries, counting from index `i`: `np.where(...)[0]`. -/
def whereTrueAux (i : ℕ) : List Bool → List ℕ
  | [] => []
  | b :: t => if b then i :: whereTrueAux (i + 1) t else whereTrueAux (i + 1) t

/-- The `for item in result` loop of `patch_signal`: walk the run lengths with the
alternating `below` flag and collect `range(index, index + item)` for every low
run of length at most `max_gap`. -/
def patchLoop (max_gap : ℚ) : Bool → ℕ → List ℕ → List ℕ
  | _, _, [] => []
  | below, index, item :: rest =>
      (if below = true ∧ (item : ℚ) ≤ max_gap then List.range' index item else []) ++
        patchLoop max_gap (!below) (index + item) rest

/-- The fancy assignment `signal[gaps] = cutoff + 1`: position `i + j` of the
result is `cutoff + 1` when it is listed in `gaps`, the original sample
otherwise. -/
def setGaps (gaps : List ℕ) (cutoff : ℤ) : ℕ → List ℤ → List ℤ
  | _, [] => []
  | i, v :: vs => (if i ∈ gaps then cutoff + 1 else v) :: setGaps gaps cutoff (i + 1) vs

/-- `patch_signal` from analyze.py.  On the empty list Python raises IndexError at
`signal[0]`; that case is modelled where it is observed, in `get_bark_fraction`,
and every claim about `patch_signal` itself concerns non-empty signals only.
The run lengths are computed exactly as in the source:
`np.diff(np.where(np.concatenate(([mask[0]], mask[:-1] != mask[1:], [True])))[0])`. -/
def patch_signal (signal : List ℤ) (cutoff : ℤ) (max_gap : ℚ) : List ℤ :=
  match signal with
  | [] => []
  | s0 :: _ =>
    let mask : List Bool :=
      if s0 > cutoff then signal.map (fun v => decide (v > cutoff))
      else signal.map (fun v => decide (v ≤ cutoff))
    let below : Bool := !(decide (s0 > cutoff))
    let result : List ℕ :=
      diffList (whereTrueAux 0 (mask.headD false ::
        (List.zipWith (fun a b => a != b) mask.dropLast mask.tail ++ [true])))
    setGaps (patchLoop max_gap below 0 result) cutoff 0 signal

/-- `get_bark_fraction` from analyze.py.  `0.000125` is the hard-coded
seconds-per-sample constant of the source; Python's ZeroDivisionError on
`len(signal) == 0` and the IndexError that `patch_signal` raises on an empty
signal are made explicit. -/
def get_bark_fraction (signal : List ℤ) (cutoff : ℤ) (max_gap : ℚ) : Except PyError ℚ :=
  if max_gap ≤ 0 then
    if signal.length = 0 then .error .zeroDivision
    else .ok ((countHigh signal cutoff : ℚ) / (signal.length : ℚ))
  else
    match signal with
    | [] => .error .indexError
    | _ =>
      let patched := patch_signal signal cutoff (max_gap / 0.000125)
      if patched.length = 0 then .error .zeroDivision
      else .ok ((countHigh patched cutoff : ℚ) / (patched.length : ℚ))

/-- A decoded .wav file: channel count, frame rate, and the decoded int16 frames. -/
structure WavFile where
  nchannels : ℕ
  framerate : ℕ
  frames : List ℤ

/-- `np.abs` on an int16 sample: the absolute value, except that `abs (-32768)`
overflows back to `-32768` in int16 arithmetic. -/
def absInt16 (v : ℤ) : ℤ :=
  if v = -32768 then -32768 else |v|

/-- `np.linspace(start, stop, num)` with the numpy endpoint conventions:
`num` evenly spaced points from `start` to `stop` inclusive. -/
def linspace (start stop : ℚ) (num : ℕ) : List ℚ :=
  if num = 0 then []
  else if num = 1 then [start]
  else (List.range num).map
    (fun (i : ℕ) => start + (stop - start) * (i : ℚ) / ((num - 1 : ℕ) : ℚ))

/-- `read_sound_file` from analyze.py, reading all frames (`samples = -1`):
reject stereo, rectify the signal with `np.abs`, and build the time axis
`np.linspace(0, len(signal) / frame_rate, num=len(signal))`.  A .wav frame
rate is positive, so the rational division models Python's float division. -/
def read_sound_file (w : WavFile) : Except PyError (List ℚ × List ℤ) :=
  if w.nchannels = 2 then .error (.valueError "Only mono files supported.")
  else
    let signal := w.frames.map absInt16
    let time := linspace 0 ((signal.length : ℚ) / (w.framerate : ℚ)) signal.length
    .ok (time, signal)

/-- The numeric core of `analyze_file` from analyze.py:
`total_time = time[-1]` and `bark_time = total_time * bark_fraction`.
`time[-1]` on an empty array is an IndexError. -/
def analyze_file_core (w : WavFile) (cutoff : ℤ) (max_gap : ℚ) :
    Except PyError (ℚ × ℚ) :=
  match read_sound_file w with
  | .error e => .error e
  | .ok (time, signal) =>
    match time.getLast? with
    | none => .error .indexError
    | some total_time =>
      match get_bark_fraction signal cutoff max_gap with
      | .error e => .error e
      | .ok f => .ok (total_time, total_time * f)

/-- The header row written by `write_csv`. -/
def csvHeader : List String := ["timestamp", "total_time", "bark_time"]

/-- `write_csv` from utils.py, over an explicit file state: `fileContent` is
`some content` when the target file already exists.  The result is the pair
(content of the file after the call, the caller's `rows` list after the call) —
Python mutates the caller's list in the header branch via `rows.insert(0, header)`
and then writes that same list. -/
def write_csv (rows : List (List String)) (fileContent : Option (List (List String)))
    (overwrite : Bool) : List (List String) × List (List String) :=
  if fileContent.isSome ∧ overwrite = false then
    (fileContent.getD [] ++ rows, rows)
  else
    (csvHeader :: rows, csvHeader :: rows)

/-- The raw threshold mask of the spec: sample strictly greater than cutoff. -/
def rawMask (cutoff : ℤ) (signal : List ℤ) : List Bool :=
  signal.map (fun v => decide (v > cutoff))

/-- Follows the words of claim C1 and spec §4.1: partition the mask into maximal
contiguous runs of identical value; reclassify as high every low run whose
length is at most `max_gap`; leave longer low runs low and never alter high
runs; a boundary run is treated by the same length rule as an interior run. -/
def specPatchMask (max_gap : ℚ) : List Bool → List Bool
  | [] => []
  | x :: xs =>
    (if x = false ∧ ((List.takeWhile (fun y => y == x) (x :: xs)).length : ℚ) ≤ max_gap then
      List.replicate (List.takeWhile (fun y => y == x) (x :: xs)).length true
    else List.takeWhile (fun y => y == x) (x :: xs))
      ++ specPatchMask max_gap (List.dropWhile (fun y => y == x) (x :: xs))
termination_by m => m.length
decreasing_by
  simp only [List.dropWhile_cons, beq_self_eq_true, if_true, List.length_cons]
  exact Nat.lt_succ_of_le (List.dropWhile_sublist _).length_le

/-- Signal-level rendering of the patching rule of claim C1 / spec §4.1: the
signal is split into maximal runs of identical high/low classification, every
low run of length at most `max_gap` is overwritten with `cutoff + 1`, and every
other run is kept unchanged. -/
def specPatchSignal (cutoff : ℤ) (max_gap : ℚ) : List ℤ → List ℤ
  | [] => []
  | x :: xs =>
    (if decide (x > cutoff) = false ∧
        ((List.takeWhile (fun v => decide (v > cutoff) == decide (x > cutoff)) (x :: xs)).length : ℚ)
          ≤ max_gap then
      List.replicate
        (List.takeWhile (fun v => decide (v > cutoff) == decide (x > cutoff)) (x :: xs)).length
        (cutoff + 1)
    else List.takeWhile (fun v => decide (v > cutoff) == decide (x > cutoff)) (x :: xs))
      ++ specPatchSignal cutoff max_gap
          (List.dropWhile (fun v => decide (v > cutoff) == decide (x > cutoff)) (x :: xs))
termination_by s => s.length
decreasing_by
  simp only [List.dropWhile_cons, beq_self_eq_true, if_true, List.length_cons]
  exact Nat.lt_succ_of_le (List.dropWhile_sublist _).length_le

/-- Modelled from the words of claim C3: a variant of `get_bark_fraction` that
converts the gap from seconds to samples with the sequence's own sample rate
`r` (tolerance `max_gap * r` samples) instead of the source's hard-coded
`max_gap / 0.000125`. -/
def get_bark_fraction_atRate (r : ℕ) (signal : List ℤ) (cutoff : ℤ) (max_gap : ℚ) :
    Except PyError ℚ :=
  if max_gap ≤ 0 then
    if signal.length = 0 then .error .zeroDivision
    else .ok ((countHigh signal cutoff : ℚ) / (signal.length : ℚ))
  else
    match signal with
    | [] => .error .indexError
    | _ =>
      let patched := patch_signal signal cutoff (max_gap * (r : ℚ))
      if patched.length = 0 then .error .zeroDivision
      else .ok ((countHigh patched cutoff : ℚ) / (patched.length : ℚ))

/-- Helper for the run-length characterization: `runsAux b n xs` is the list of
run lengths of `b ^ n ++ xs`, the current run of value `b` having length `n`. -/
def runsAux (b : Bool) (n : ℕ) : List Bool → List ℕ
  | [] => [n]
  | x :: xs => if x == b then runsAux b (n + 1) xs else n :: runsAux x 1 xs

/-- Lengths of the maximal runs of equal values of a boolean list. -/
def runLengths : List Bool → List ℕ
  | [] => []
  | x :: xs => runsAux x 1 xs

/-- Patch a signal one run at a time: for run lengths `ks` alternating in
classification starting with `below`, replace each short low run by
`cutoff + 1` values and keep every other run. -/
def applyRuns (cutoff : ℤ) (max_gap : ℚ) : Bool → List ℕ → List ℤ → List ℤ
  | _, [], s => s
  | below, k :: ks, s =>
      (if below = true ∧ (k : ℚ) ≤ max_gap then List.replicate k (cutoff + 1) else s.take k) ++
        applyRuns cutoff max_gap (!below) ks (s.drop k)

/-! Lemmas about `setGaps`. -/

theorem setGaps_nil_gaps (c : ℤ) : ∀ (i : ℕ) (s : List ℤ), setGaps [] c i s = s := by
  intro i s
  induction s generalizing i with
  | nil => rfl
  | cons v vs ih => simp [setGaps, ih]

theorem setGaps_append (G : List ℕ) (c : ℤ) (a b : List ℤ) :
    ∀ i, setGaps G c i (a ++ b) = setGaps G c i a ++ setGaps G c (i + a.length) b := by
  induction a with
  | nil => intro i; simp [setGaps]
  | cons x a ih =>
      intro i
      have h : i + 1 + a.length = i + (a.length + 1) := by omega
      simp only [List.cons_append, setGaps, List.append_eq, ih (i + 1), List.length_cons, h]

theorem setGaps_congr (G G' : List ℕ) (c : ℤ) :
    ∀ (s : List ℤ) (i : ℕ), (∀ j, i ≤ j → j < i + s.length → (j ∈ G ↔ j ∈ G')) →
      setGaps G c i s = setGaps G' c i s := by
  intro s
  induction s with
  | nil => intro i _; rfl
  | cons v vs ih =>
      intro i h
      have hhead : (i ∈ G) = (i ∈ G') := by
        have := h i le_rfl (by simp only [List.length_cons]; omega)
        exact propext this
      simp only [setGaps, hhead]
      rw [ih (i + 1) (fun j h1 h2 =>
        h j (by omega) (by simp only [List.length_cons] at h2 ⊢; omega))]

theorem setGaps_of_disjoint (G : List ℕ) (c : ℤ) :
    ∀ (s : List ℤ) (i : ℕ), (∀ j ∈ G, j < i ∨ i + s.length ≤ j) →
      setGaps G c i s = s := by
  intro s
  induction s with
  | nil => intro i _; rfl
  | cons v vs ih =>
      intro i h
      have hhead : i ∉ G := by
        intro hmem
        rcases h i hmem with h1 | h1
        · omega
        · simp only [List.length_cons] at h1; omega
      simp only [setGaps, if_neg hhead]
      rw [ih (i + 1) (fun j hj => by
        rcases h j hj with h1 | h1
        · exact Or.inl (by omega)
        · exact Or.inr (by simp only [List.length_cons] at h1 ⊢; omega))]

theorem setGaps_of_covering (G : List ℕ) (c : ℤ) :
    ∀ (s : List ℤ) (i : ℕ), (∀ j, i ≤ j → j < i + s.length → j ∈ G) →
      setGaps G c i s = List.replicate s.length (c + 1) := by
  intro s
  induction s with
  | nil => intro i _; rfl
  | cons v vs ih =>
      intro i h
      have hhead : i ∈ G := h i le_rfl (by simp only [List.length_cons]; omega)
      simp only [setGaps, if_pos hhead, List.length_cons, List.replicate_succ]
      rw [ih (i + 1) (fun j h1 h2 =>
        h j (by omega) (by simp only [List.length_cons]; omega))]

theorem setGaps_length (G : List ℕ) (c : ℤ) :
    ∀ (s : List ℤ) (i : ℕ), (setGaps G c i s).length = s.length := by
  intro s
  induction s with
  | nil => intro i; rfl
  | cons v vs ih => intro i; simp [setGaps, ih]

/-! Lemmas about `patchLoop`. -/

theorem patchLoop_mem_ge (g : ℚ) :
    ∀ (ks : List ℕ) (below : Bool) (i j : ℕ), j ∈ patchLoop g below i ks → i ≤ j := by
  intro ks
  induction ks with
  | nil => intro below i j h; simp [patchLoop] at h
  | cons k ks ih =>
      intro below i j h
      simp only [patchLoop, List.mem_append] at h
      rcases h with h | h
      · split at h
        · exact (List.mem_range'_1.mp h).1
        · simp at h
      · exact le_trans (Nat.le_add_right i k) (ih (!below) (i + k) j h)

/-! Run-length lemmas: `runsAux` and `runLengths`. -/

theorem runsAux_eq (b : Bool) :
    ∀ (xs : List Bool) (n : ℕ),
      runsAux b n xs = (n + (xs.takeWhile (fun y => y == b)).length) ::
        runLengths (xs.dropWhile (fun y => y == b)) := by
  intro xs
  induction xs with
  | nil => intro n; simp [runsAux, runLengths]
  | cons x t ih =>
      intro n
      by_cases hx : x = b
      · subst hx
        simp only [runsAux, beq_self_eq_true, if_true, ih (n + 1), List.takeWhile_cons,
          List.dropWhile_cons, List.length_cons]
        congr 1
        omega
      · have hb : (x == b) = false := by simp [hx]
        simp [runsAux, hb, runLengths]

theorem runLengths_cons (x : Bool) (xs : List Bool) :
    runLengths (x :: xs) = ((x :: xs).takeWhile (fun y => y == x)).length ::
      runLengths ((x :: xs).dropWhile (fun y => y == x)) := by
  simp only [runLengths, runsAux_eq x xs 1, List.takeWhile_cons, List.dropWhile_cons,
    beq_self_eq_true, if_true, List.length_cons]
  congr 1
  omega

theorem not_beq_not (x b : Bool) : ((!x) == (!b)) = (x == b) := by
  cases x <;> cases b <;> rfl

theorem runsAux_map_not :
    ∀ (xs : List Bool) (b : Bool) (n : ℕ),
      runsAux (!b) n (xs.map (fun y => !y)) = runsAux b n xs := by
  intro xs
  induction xs with
  | nil => intro b n; rfl
  | cons x t ih =>
      intro b n
      simp only [List.map_cons, runsAux, not_beq_not]
      by_cases h : (x == b) = true
      · rw [h]
        simp only [if_true]
        exact ih b (n + 1)
      · have h' : (x == b) = false := by revert h; cases (x == b) <;> simp
        rw [h']
        simp only [Bool.false_eq_true, if_false]
        exact congrArg (n :: ·) (ih x 1)

theorem runLengths_map_not (m : List Bool) :
    runLengths (m.map (fun y => !y)) = runLengths m := by
  cases m with
  | nil => rfl
  | cons x t =>
      simp only [List.map_cons, runLengths]
      exact runsAux_map_not t x 1

theorem runsAux_sum :
    ∀ (xs : List Bool) (b : Bool) (n : ℕ), (runsAux b n xs).sum = n + xs.length := by
  intro xs
  induction xs with
  | nil => intro b n; simp [runsAux]
  | cons x t ih =>
      intro b n
      simp only [runsAux]
      by_cases h : (x == b) = true
      · rw [h]
        simp only [if_true, ih b (n + 1), List.length_cons]
        omega
      · have h' : (x == b) = false := by revert h; cases (x == b) <;> simp
        rw [h']
        simp only [Bool.false_eq_true, if_false, List.sum_cons, ih x 1, List.length_cons]
        omega

theorem runLengths_sum (m : List Bool) : (runLengths m).sum = m.length := by
  cases m with
  | nil => rfl
  | cons x t =>
      simp only [runLengths, runsAux_sum t x 1, List.length_cons]
      omega

theorem runsAux_replicate (b : Bool) :
    ∀ (k n : ℕ), runsAux b n (List.replicate k b) = [n + k] := by
  intro k
  induction k with
  | zero => intro n; simp [runsAux]
  | succ k ih =>
      intro n
      simp only [List.replicate_succ, runsAux, beq_self_eq_true, if_true, ih (n + 1)]
      congr 1
      omega

theorem runLengths_replicate (b : Bool) (k : ℕ) :
    runLengths (List.replicate (k + 1) b) = [k + 1] := by
  simp only [List.replicate_succ, runLengths, runsAux_replicate b k 1]
  congr 1
  omega

/-! The change-flag array of `patch_signal`:
`mask[:-1] != mask[1:]` followed by the sentinel `[True]`. -/

/-- The tail of the concatenated array of `patch_signal`:
elementwise `mask[:-1] != mask[1:]`, then the sentinel `[True]`. -/
def flagsOf (m : List Bool) : List Bool :=
  List.zipWith (fun a b => a != b) m.dropLast m.tail ++ [true]

theorem zipWith_bne_cons (x y : Bool) (t : List Bool) :
    List.zipWith (fun a b => a != b) (x :: y :: t).dropLast (x :: y :: t).tail =
      (x != y) :: List.zipWith (fun a b => a != b) (y :: t).dropLast (y :: t).tail := by
  rfl

theorem flagsOf_cons_cons (x y : Bool) (t : List Bool) :
    flagsOf (x :: y :: t) = (x != y) :: flagsOf (y :: t) := by
  simp only [flagsOf, zipWith_bne_cons, List.cons_append]

theorem flagsOf_run_nil (b : Bool) :
    ∀ k, flagsOf (List.replicate (k + 1) b) = List.replicate k false ++ [true] := by
  intro k
  induction k with
  | zero => rfl
  | succ k ih =>
      have h2 : List.replicate (k + 1 + 1) b = b :: List.replicate (k + 1) b :=
        List.replicate_succ b (k + 1)
      have h3 : List.replicate (k + 1) b = b :: List.replicate k b := List.replicate_succ b k
      rw [h2, h3, flagsOf_cons_cons, ← h3, ih]
      simp [List.replicate_succ]

theorem flagsOf_run_cons (b r : Bool) (hr : r ≠ b) (t : List Bool) :
    ∀ k, flagsOf (List.replicate (k + 1) b ++ r :: t) =
      List.replicate k false ++ true :: flagsOf (r :: t) := by
  intro k
  induction k with
  | zero =>
      simp only [List.replicate_succ, List.replicate_zero, List.cons_append, List.nil_append]
      rw [flagsOf_cons_cons b r t]
      have : (b != r) = true := bne_iff_ne.mpr (Ne.symm hr)
      rw [this]
  | succ k ih =>
      have h2 : List.replicate (k + 1 + 1) b ++ r :: t =
          b :: (List.replicate (k + 1) b ++ r :: t) := by
        simp [List.replicate_succ]
      have h3 : List.replicate (k + 1) b ++ r :: t = b :: (List.replicate k b ++ r :: t) := by
        simp [List.replicate_succ]
      rw [h2, h3, flagsOf_cons_cons, ← h3, ih]
      simp [List.replicate_succ]

/-! Lemmas about `whereTrueAux`. -/

theorem whereTrueAux_true (i : ℕ) (l : List Bool) :
    whereTrueAux i (true :: l) = i :: whereTrueAux (i + 1) l := by
  simp [whereTrueAux]

theorem whereTrueAux_replicate_false (l : List Bool) :
    ∀ (n i : ℕ), whereTrueAux i (List.replicate n false ++ l) = whereTrueAux (i + n) l := by
  intro n
  induction n with
  | zero => intro i; simp [whereTrueAux]
  | succ n ih =>
      intro i
      have h : i + 1 + n = i + (n + 1) := by omega
      simp only [List.replicate_succ, List.cons_append, whereTrueAux, Bool.false_eq_true,
        if_false, List.append_eq, ih (i + 1), h]

/-! Auxiliary facts about `takeWhile` and `dropWhile`. -/

theorem dropWhile_head_false {α : Type} (p : α → Bool) :
    ∀ (l : List α) (r : α) (t : List α), l.dropWhile p = r :: t → p r = false := by
  intro l
  induction l with
  | nil => intro r t h; simp [List.dropWhile] at h
  | cons x l' ih =>
      intro r t h
      rw [List.dropWhile_cons] at h
      by_cases hx : p x = true
      · rw [if_pos hx] at h
        exact ih r t h
      · have hx' : p x = false := by revert hx; cases p x <;> simp
        rw [hx'] at h
        simp only [Bool.false_eq_true, if_false] at h
        cases h
        exact hx'

theorem takeWhile_eq_replicate (m : List Bool) (b : Bool) :
    m.takeWhile (fun y => y == b) =
      List.replicate (m.takeWhile (fun y => y == b)).length b := by
  rw [List.eq_replicate_iff]
  refine ⟨rfl, fun y hy => ?_⟩
  have := List.mem_takeWhile_imp hy
  exact eq_of_beq this

theorem take_length_takeWhile {α : Type} (p : α → Bool) :
    ∀ (l : List α), l.take (l.takeWhile p).length = l.takeWhile p := by
  intro l
  induction l with
  | nil => rfl
  | cons x l' ih =>
      rw [List.takeWhile_cons]
      by_cases hx : p x = true
      · rw [if_pos hx]
        simp only [List.length_cons, List.take_succ_cons, ih]
      · have hx' : p x = false := by revert hx; cases p x <;> simp
        rw [hx']
        simp

theorem drop_length_takeWhile {α : Type} (p : α → Bool) :
    ∀ (l : List α), l.drop (l.takeWhile p).length = l.dropWhile p := by
  intro l
  induction l with
  | nil => rfl
  | cons x l' ih =>
      rw [List.takeWhile_cons, List.dropWhile_cons]
      by_cases hx : p x = true
      · rw [if_pos hx, if_pos hx]
        simp only [List.length_cons, List.drop_succ_cons, ih]
      · have hx' : p x = false := by revert hx; cases p x <;> simp
        rw [hx']
        simp

/-! The bridge: the `np.diff(np.where(...))` pipeline computes the run lengths. -/

theorem diffWhere_eq_runLengths :
    ∀ (n : ℕ) (m : List Bool), m.length ≤ n → m ≠ [] →
      ∀ i, diffList (i :: whereTrueAux (i + 1) (flagsOf m)) = runLengths m := by
  intro n
  induction n with
  | zero =>
      intro m hn hne i
      cases m with
      | nil => exact absurd rfl hne
      | cons x xs => simp at hn
  | succ n ih =>
      intro m hn hne i
      rcases List.exists_cons_of_ne_nil hne with ⟨x, xs, rfl⟩
      have hKpos : 1 ≤ ((x :: xs).takeWhile (fun y => y == x)).length := by
        simp [List.takeWhile_cons]
      rcases Nat.exists_eq_add_of_le hKpos with ⟨k, hk⟩
      have hrepl := takeWhile_eq_replicate (x :: xs) x
      have hsplit : (x :: xs).takeWhile (fun y => y == x) ++
          (x :: xs).dropWhile (fun y => y == x) = x :: xs :=
        List.takeWhile_append_dropWhile ..
      rw [runLengths_cons]
      cases hrest : (x :: xs).dropWhile (fun y => y == x) with
      | nil =>
          have hlen : ((x :: xs).takeWhile (fun y => y == x)).length = k + 1 := by omega
          rw [hlen]
          have hm : x :: xs = List.replicate (k + 1) x := by
            rw [← hsplit, hrest, List.append_nil, hrepl, hk, Nat.add_comm 1 k]
          rw [hm, flagsOf_run_nil, whereTrueAux_replicate_false, whereTrueAux_true]
          simp only [whereTrueAux, diffList, runLengths]
          congr 1
          omega
      | cons r t =>
          have hr : r ≠ x := by
            have := dropWhile_head_false (fun y => y == x) (x :: xs) r t hrest
            intro hcon
            rw [hcon] at this
            simp at this
          have hlen : ((x :: xs).takeWhile (fun y => y == x)).length = k + 1 := by omega
          rw [hlen]
          have hm : x :: xs = List.replicate (k + 1) x ++ r :: t := by
            rw [← hsplit, hrest, hrepl, hk, Nat.add_comm 1 k]
          have hlenxs : (r :: t).length ≤ n := by
            have h1 : (x :: xs).length = (k + 1) + (r :: t).length := by
              rw [hm]
              simp
            simp only [List.length_cons] at hn h1 ⊢
            omega
          rw [hm, flagsOf_run_cons x r hr t, whereTrueAux_replicate_false, whereTrueAux_true]
          have harith : i + 1 + k = i + (k + 1) := by omega
          rw [harith]
          have hIH := ih (r :: t) hlenxs (by simp) (i + (k + 1))
          simp only [diffList] at hIH ⊢
          rw [hIH]
          congr 1
          omega

/-! The gap-collection loop applied through `setGaps` patches the signal
one run at a time. -/

theorem setGaps_patchLoop (c : ℤ) (g : ℚ) :
    ∀ (ks : List ℕ) (below : Bool) (i : ℕ) (s : List ℤ), s.length = ks.sum →
      setGaps (patchLoop g below i ks) c i s = applyRuns c g below ks s := by
  intro ks
  induction ks with
  | nil =>
      intro below i s hs
      simp only [patchLoop, applyRuns, setGaps_nil_gaps]
  | cons k ks ih =>
      intro below i s hs
      simp only [List.sum_cons] at hs
      have hks : k ≤ s.length := by omega
      have htake : (s.take k).length = k := by rw [List.length_take]; omega
      have hdrop : (s.drop k).length = ks.sum := by rw [List.length_drop]; omega
      simp only [patchLoop, applyRuns]
      conv_lhs => rw [← List.take_append_drop k s]
      rw [setGaps_append, htake]
      by_cases hcond : below = true ∧ (k : ℚ) ≤ g
      · rw [if_pos hcond, if_pos hcond]
        have hcov : ∀ j, i ≤ j → j < i + (s.take k).length →
            j ∈ List.range' i k ++ patchLoop g (!below) (i + k) ks := by
          intro j h1 h2
          rw [htake] at h2
          exact List.mem_append_left _ (List.mem_range'_1.mpr ⟨h1, h2⟩)
        have hiff : ∀ j, i + k ≤ j → j < i + k + (s.drop k).length →
            (j ∈ List.range' i k ++ patchLoop g (!below) (i + k) ks ↔
              j ∈ patchLoop g (!below) (i + k) ks) := by
          intro j h1 h2
          constructor
          · intro hj
            rcases List.mem_append.mp hj with hj | hj
            · have := (List.mem_range'_1.mp hj).2
              omega
            · exact hj
          · exact fun hj => List.mem_append_right _ hj
        rw [setGaps_of_covering _ c (s.take k) i hcov, htake,
          setGaps_congr _ (patchLoop g (!below) (i + k) ks) c (s.drop k) (i + k) hiff,
          ih (!below) (i + k) (s.drop k) hdrop]
      · rw [if_neg hcond, if_neg hcond]
        simp only [List.nil_append]
        have hdisj : ∀ j ∈ patchLoop g (!below) (i + k) ks,
            j < i ∨ i + (s.take k).length ≤ j := by
          intro j hj
          right
          rw [htake]
          exact patchLoop_mem_ge g ks (!below) (i + k) j hj
        rw [setGaps_of_disjoint _ c (s.take k) i hdisj,
          ih (!below) (i + k) (s.drop k) hdrop]

/-- Unfolding of `patch_signal` on a non-empty signal, with the concatenated
flag array written through `flagsOf`. -/
theorem patch_signal_cons (x : ℤ) (xs : List ℤ) (c : ℤ) (g : ℚ) :
    patch_signal (x :: xs) c g =
      setGaps (patchLoop g (!(decide (x > c))) 0
        (diffList (whereTrueAux 0
          ((if x > c then (x :: xs).map (fun v => decide (v > c))
            else (x :: xs).map (fun v => decide (v ≤ c))).headD false ::
           flagsOf (if x > c then (x :: xs).map (fun v => decide (v > c))
            else (x :: xs).map (fun v => decide (v ≤ c))))))) c 0 (x :: xs) := rfl

theorem decide_le_eq_not_decide_lt (v c : ℤ) : decide (v ≤ c) = !(decide (c < v)) := by
  by_cases h : v ≤ c
  · rw [decide_eq_true h, decide_eq_false (not_lt.mpr h)]
    rfl
  · rw [decide_eq_false h, decide_eq_true (not_le.mp h)]
    rfl

/-- `patch_signal` patches the signal run by run: run lengths are those of the
raw mask, and the alternation starts low exactly when the first sample is low. -/
theorem patch_signal_eq_applyRuns (s : List ℤ) (c : ℤ) (g : ℚ) (hs : s ≠ []) :
    patch_signal s c g =
      applyRuns c g (!((rawMask c s).headD false)) (runLengths (rawMask c s)) s := by
  rcases List.exists_cons_of_ne_nil hs with ⟨x, xs, rfl⟩
  rw [patch_signal_cons]
  have hsum : (x :: xs).length = (runLengths (rawMask c (x :: xs))).sum := by
    rw [runLengths_sum]
    simp [rawMask]
  by_cases hx : x > c
  · have hdec : decide (x > c) = true := decide_eq_true hx
    rw [if_pos hx]
    have hmask : (x :: xs).map (fun v => decide (v > c)) = rawMask c (x :: xs) := rfl
    rw [hmask]
    have hhead : (rawMask c (x :: xs)).headD false = true := by
      simp [rawMask, hdec]
    rw [hhead, whereTrueAux_true,
      diffWhere_eq_runLengths (rawMask c (x :: xs)).length (rawMask c (x :: xs)) le_rfl
        (by simp [rawMask]) 0,
      hdec]
    exact setGaps_patchLoop c g (runLengths (rawMask c (x :: xs))) (!true) 0 (x :: xs) hsum
  · have hdec : decide (x > c) = false := decide_eq_false hx
    rw [if_neg hx]
    have hmask : (x :: xs).map (fun v => decide (v ≤ c)) =
        (rawMask c (x :: xs)).map (fun y => !y) := by
      simp only [rawMask, List.map_map]
      apply List.map_congr_left
      intro v _
      exact decide_le_eq_not_decide_lt v c
    rw [hmask]
    have hhead : ((rawMask c (x :: xs)).map (fun y => !y)).headD false = true := by
      simp [rawMask, hdec]
    rw [hhead, whereTrueAux_true,
      diffWhere_eq_runLengths ((rawMask c (x :: xs)).map (fun y => !y)).length
        ((rawMask c (x :: xs)).map (fun y => !y)) le_rfl (by simp [rawMask]) 0,
      runLengths_map_not, hdec]
    have hhead' : (rawMask c (x :: xs)).headD false = false := by
      simp [rawMask, hdec]
    rw [hhead']
    exact setGaps_patchLoop c g (runLengths (rawMask c (x :: xs))) (!false) 0 (x :: xs) hsum

/-- Unfolding equation of `specPatchSignal` on a non-empty signal. -/
theorem specPatchSignal_cons (c : ℤ) (g : ℚ) (x : ℤ) (xs : List ℤ) :
    specPatchSignal c g (x :: xs) =
      (if decide (x > c) = false ∧
          ((List.takeWhile (fun v => decide (v > c) == decide (x > c)) (x :: xs)).length : ℚ)
            ≤ g then
        List.replicate
          (List.takeWhile (fun v => decide (v > c) == decide (x > c)) (x :: xs)).length (c + 1)
      else List.takeWhile (fun v => decide (v > c) == decide (x > c)) (x :: xs))
        ++ specPatchSignal c g
            (List.dropWhile (fun v => decide (v > c) == decide (x > c)) (x :: xs)) := by
  simp only [specPatchSignal]

/-- Run-by-run patching coincides with the spec-level patching rule. -/
theorem applyRuns_eq_specPatchSignal (c : ℤ) (g : ℚ) :
    ∀ (n : ℕ) (s : List ℤ), s.length ≤ n →
      applyRuns c g (!((rawMask c s).headD false)) (runLengths (rawMask c s)) s =
        specPatchSignal c g s := by
  intro n
  induction n with
  | zero =>
      intro s hn
      have hs : s = [] := List.length_eq_zero.mp (Nat.le_zero.mp hn)
      subst hs
      simp [rawMask, runLengths, applyRuns, specPatchSignal]
  | succ n ih =>
      intro s hn
      cases s with
      | nil => simp [rawMask, runLengths, applyRuns, specPatchSignal]
      | cons x xs =>
          simp only [List.length_cons] at hn
          have hmaskcons : rawMask c (x :: xs) = decide (x > c) :: rawMask c xs := rfl
          rw [hmaskcons, runLengths_cons]
          simp only [List.headD_cons]
          have hTW : (decide (x > c) :: rawMask c xs).takeWhile
                (fun y => y == decide (x > c)) =
              ((x :: xs).takeWhile (fun v => decide (v > c) == decide (x > c))).map
                (fun v => decide (v > c)) := by
            rw [← hmaskcons]
            exact List.takeWhile_map ..
          have hDW : (decide (x > c) :: rawMask c xs).dropWhile
                (fun y => y == decide (x > c)) =
              ((x :: xs).dropWhile (fun v => decide (v > c) == decide (x > c))).map
                (fun v => decide (v > c)) := by
            rw [← hmaskcons]
            exact List.dropWhile_map ..
          rw [hTW, hDW, List.length_map]
          simp only [applyRuns]
          have hKtake : (x :: xs).take
              ((x :: xs).takeWhile (fun v => decide (v > c) == decide (x > c))).length =
              (x :: xs).takeWhile (fun v => decide (v > c) == decide (x > c)) :=
            take_length_takeWhile ..
          have hKdrop : (x :: xs).drop
              ((x :: xs).takeWhile (fun v => decide (v > c) == decide (x > c))).length =
              (x :: xs).dropWhile (fun v => decide (v > c) == decide (x > c)) :=
            drop_length_takeWhile ..
          rw [hKtake, hKdrop, Bool.not_not, specPatchSignal_cons]
          simp only [Bool.not_eq_true']
          congr 1
          cases hrest : (x :: xs).dropWhile (fun v => decide (v > c) == decide (x > c)) with
          | nil => simp [runLengths, applyRuns, specPatchSignal]
          | cons r t =>
              have hpr := dropWhile_head_false
                (fun v => decide (v > c) == decide (x > c)) (x :: xs) r t hrest
              have hdecr : decide (r > c) = !(decide (x > c)) := by
                cases hxc : decide (x > c) <;> cases hrc : decide (r > c) <;> simp_all
              have hlenrest : (r :: t).length ≤ n := by
                have h1 : (x :: xs).dropWhile (fun v => decide (v > c) == decide (x > c)) =
                    xs.dropWhile (fun v => decide (v > c) == decide (x > c)) := by
                  rw [List.dropWhile_cons]
                  simp
                rw [h1] at hrest
                have h2 : (xs.dropWhile (fun v => decide (v > c) == decide (x > c))).length ≤
                    xs.length := (List.dropWhile_sublist _).length_le
                rw [hrest] at h2
                simp only [List.length_cons] at h2 ⊢
                omega
              have hrw : List.map (fun v => decide (v > c)) (r :: t) = rawMask c (r :: t) := rfl
              rw [hrw]
              have hihgoal := ih (r :: t) hlenrest
              have hheadr : (rawMask c (r :: t)).headD false = decide (r > c) := rfl
              rw [hheadr, hdecr, Bool.not_not] at hihgoal
              exact hihgoal

/-- `patch_signal` equals the spec-level run patching rule on every signal. -/
theorem patch_signal_eq_specPatchSignal (s : List ℤ) (c : ℤ) (g : ℚ) (hs : s ≠ []) :
    patch_signal s c g = specPatchSignal c g s := by
  rw [patch_signal_eq_applyRuns s c g hs]
  exact applyRuns_eq_specPatchSignal c g s.length s le_rfl

/-! Pointwise (Forall₂) consequences of the patching rule. -/

theorem forall₂_replicate_of {R : ℤ → ℤ → Prop} (v : ℤ) :
    ∀ (l : List ℤ), (∀ a ∈ l, R a v) → List.Forall₂ R l (List.replicate l.length v) := by
  intro l
  induction l with
  | nil => intro _; exact List.Forall₂.nil
  | cons x t ih =>
      intro h
      simp only [List.length_cons, List.replicate_succ]
      exact List.Forall₂.cons (h x (by simp)) (ih (fun a ha => h a (by simp [ha])))

theorem forall₂_refl_of {R : ℤ → ℤ → Prop} :
    ∀ (l : List ℤ), (∀ a ∈ l, R a a) → List.Forall₂ R l l := by
  intro l
  induction l with
  | nil => intro _; exact List.Forall₂.nil
  | cons x t ih =>
      intro h
      exact List.Forall₂.cons (h x (by simp)) (ih (fun a ha => h a (by simp [ha])))

theorem forall₂_of_split {R : ℤ → ℤ → Prop} {run rest A B s : List ℤ}
    (hs : s = run ++ rest) (h1 : List.Forall₂ R run A) (h2 : List.Forall₂ R rest B) :
    List.Forall₂ R s (A ++ B) := by
  subst hs
  exact List.rel_append h1 h2

/-- Pointwise description of the spec patching rule: every output sample is the
original or `cutoff + 1`; samples above the cutoff are kept; a changed sample
was low and became `cutoff + 1`. -/
theorem specPatchSignal_forall₂ (c : ℤ) (g : ℚ) :
    ∀ (n : ℕ) (s : List ℤ), s.length ≤ n →
      List.Forall₂
        (fun a b => (b = a ∨ b = c + 1) ∧ (c < a → b = a) ∧ (b ≠ a → b = c + 1 ∧ a ≤ c))
        s (specPatchSignal c g s) := by
  intro n
  induction n with
  | zero =>
      intro s hn
      have hs : s = [] := List.length_eq_zero.mp (Nat.le_zero.mp hn)
      subst hs
      have h0 : specPatchSignal c g [] = [] := by simp [specPatchSignal]
      rw [h0]
      exact List.Forall₂.nil
  | succ n ih =>
      intro s hn
      cases s with
      | nil =>
          have h0 : specPatchSignal c g [] = [] := by simp [specPatchSignal]
          rw [h0]
          exact List.Forall₂.nil
      | cons x xs =>
          simp only [List.length_cons] at hn
          rw [specPatchSignal_cons]
          have hsplit : x :: xs =
              (x :: xs).takeWhile (fun v => decide (v > c) == decide (x > c)) ++
              (x :: xs).dropWhile (fun v => decide (v > c) == decide (x > c)) :=
            (List.takeWhile_append_dropWhile ..).symm
          have hrest_le : ((x :: xs).dropWhile
              (fun v => decide (v > c) == decide (x > c))).length ≤ n := by
            have h1 : (x :: xs).dropWhile (fun v => decide (v > c) == decide (x > c)) =
                xs.dropWhile (fun v => decide (v > c) == decide (x > c)) := by
              rw [List.dropWhile_cons]
              simp
            rw [h1]
            have h2 : (xs.dropWhile (fun v => decide (v > c) == decide (x > c))).length ≤
                xs.length := (List.dropWhile_sublist _).length_le
            omega
          refine forall₂_of_split hsplit ?_ (ih _ hrest_le)
          by_cases hcond : decide (x > c) = false ∧
              (((x :: xs).takeWhile (fun v => decide (v > c) == decide (x > c))).length : ℚ) ≤ g
          · rw [if_pos hcond]
            apply forall₂_replicate_of
            intro a ha
            have hpa0 := List.mem_takeWhile_imp ha
            have hpa' : (decide (a > c) == decide (x > c)) = true := hpa0
            rw [hcond.1] at hpa'
            have hfa : decide (a > c) = false := eq_of_beq hpa'
            have hac : a ≤ c := not_lt.mp (of_decide_eq_false hfa)
            exact ⟨Or.inr rfl, fun hca => absurd hca (not_lt.mpr hac), fun _ => ⟨rfl, hac⟩⟩
          · rw [if_neg hcond]
            apply forall₂_refl_of
            intro a _
            exact ⟨Or.inl rfl, fun _ => rfl, fun hne => absurd rfl hne⟩

/-- Pointwise description of `patch_signal` on a non-empty signal. -/
theorem patch_signal_forall₂ (s : List ℤ) (c : ℤ) (g : ℚ) (hs : s ≠ []) :
    List.Forall₂
      (fun a b => (b = a ∨ b = c + 1) ∧ (c < a → b = a) ∧ (b ≠ a → b = c + 1 ∧ a ≤ c))
      s (patch_signal s c g) := by
  rw [patch_signal_eq_specPatchSignal s c g hs]
  exact specPatchSignal_forall₂ c g s.length s le_rfl

theorem patch_signal_length (s : List ℤ) (c : ℤ) (g : ℚ) (hs : s ≠ []) :
    (patch_signal s c g).length = s.length :=
  (List.Forall₂.length_eq (patch_signal_forall₂ s c g hs)).symm

theorem countP_le_of_forall₂ (p : ℤ → Bool) :
    ∀ {l l' : List ℤ}, List.Forall₂ (fun a b => p a = true → p b = true) l l' →
      l.countP p ≤ l'.countP p := by
  intro l l' h
  induction h with
  | nil => exact le_rfl
  | @cons a b l1 l2 hab htail ih =>
      rw [List.countP_cons, List.countP_cons]
      by_cases ha : p a = true
      · have hb := hab ha
        simp [ha, hb]
        omega
      · have ha' : p a = false := by revert ha; cases p a <;> simp
        simp only [ha', Bool.false_eq_true, if_false, Nat.add_zero]
        exact le_trans ih (Nat.le_add_right _ _)

/-- Patching never lowers the number of samples classified high. -/
theorem countHigh_patch_ge (s : List ℤ) (c : ℤ) (g : ℚ) (hs : s ≠ []) :
    countHigh s c ≤ countHigh (patch_signal s c g) c := by
  have h := patch_signal_forall₂ s c g hs
  have h' : List.Forall₂ (fun a b => decide (a > c) = true → decide (b > c) = true)
      s (patch_signal s c g) :=
    List.Forall₂.imp
      (fun a b hab hdec => by
        have hca : c < a := of_decide_eq_true hdec
        rw [hab.2.1 hca]
        exact hdec) h
  exact countP_le_of_forall₂ _ h'

/-! Mask-level counterpart of the patching rule. -/

theorem rawMask_append (c : ℤ) (a b : List ℤ) :
    rawMask c (a ++ b) = rawMask c a ++ rawMask c b := List.map_append ..

theorem specPatchSignal_nil (c : ℤ) (g : ℚ) : specPatchSignal c g [] = [] := by
  simp [specPatchSignal]

theorem specPatchMask_nil (g : ℚ) : specPatchMask g [] = [] := by
  simp [specPatchMask]

/-- Unfolding equation of `specPatchMask` on a non-empty mask. -/
theorem specPatchMask_cons (g : ℚ) (x : Bool) (xs : List Bool) :
    specPatchMask g (x :: xs) =
      (if x = false ∧ ((List.takeWhile (fun y => y == x) (x :: xs)).length : ℚ) ≤ g then
        List.replicate (List.takeWhile (fun y => y == x) (x :: xs)).length true
      else List.takeWhile (fun y => y == x) (x :: xs))
        ++ specPatchMask g (List.dropWhile (fun y => y == x) (x :: xs)) := by
  simp only [specPatchMask]

/-- Classifying the spec-patched signal gives the spec-patched raw mask. -/
theorem rawMask_specPatchSignal (c : ℤ) (g : ℚ) :
    ∀ (n : ℕ) (s : List ℤ), s.length ≤ n →
      rawMask c (specPatchSignal c g s) = specPatchMask g (rawMask c s) := by
  intro n
  induction n with
  | zero =>
      intro s hn
      have hs : s = [] := List.length_eq_zero.mp (Nat.le_zero.mp hn)
      subst hs
      rw [specPatchSignal_nil]
      have h0 : rawMask c [] = [] := rfl
      rw [h0, specPatchMask_nil]
  | succ n ih =>
      intro s hn
      cases s with
      | nil =>
          rw [specPatchSignal_nil]
          have h0 : rawMask c [] = [] := rfl
          rw [h0, specPatchMask_nil]
      | cons x xs =>
          simp only [List.length_cons] at hn
          rw [specPatchSignal_cons]
          have hmaskcons : rawMask c (x :: xs) = decide (x > c) :: rawMask c xs := rfl
          rw [hmaskcons, specPatchMask_cons, rawMask_append]
          have hTW : (decide (x > c) :: rawMask c xs).takeWhile
                (fun y => y == decide (x > c)) =
              ((x :: xs).takeWhile (fun v => decide (v > c) == decide (x > c))).map
                (fun v => decide (v > c)) := by
            rw [← hmaskcons]
            exact List.takeWhile_map ..
          have hDW : (decide (x > c) :: rawMask c xs).dropWhile
                (fun y => y == decide (x > c)) =
              ((x :: xs).dropWhile (fun v => decide (v > c) == decide (x > c))).map
                (fun v => decide (v > c)) := by
            rw [← hmaskcons]
            exact List.dropWhile_map ..
          rw [hTW, hDW, List.length_map]
          have hrest_le : ((x :: xs).dropWhile
              (fun v => decide (v > c) == decide (x > c))).length ≤ n := by
            have h1 : (x :: xs).dropWhile (fun v => decide (v > c) == decide (x > c)) =
                xs.dropWhile (fun v => decide (v > c) == decide (x > c)) := by
              rw [List.dropWhile_cons]
              simp
            rw [h1]
            have h2 : (xs.dropWhile (fun v => decide (v > c) == decide (x > c))).length ≤
                xs.length := (List.dropWhile_sublist _).length_le
            omega
          congr 1
          · by_cases hcond : decide (x > c) = false ∧
                (((x :: xs).takeWhile (fun v => decide (v > c) == decide (x > c))).length : ℚ)
                  ≤ g
            · rw [if_pos hcond, if_pos hcond]
              rw [rawMask]
              rw [List.map_replicate]
              rw [decide_eq_true (lt_add_one c)]
            · rw [if_neg hcond, if_neg hcond]
              rfl
          · have hrm : ((x :: xs).dropWhile (fun v => decide (v > c) == decide (x > c))).map
                (fun v => decide (v > c)) =
                rawMask c ((x :: xs).dropWhile (fun v => decide (v > c) == decide (x > c))) :=
              rfl
            rw [hrm]
            exact ih _ hrest_le

/-! All-low signals. -/

theorem takeWhile_eq_self_of {α : Type} (p : α → Bool) :
    ∀ (l : List α), (∀ a ∈ l, p a = true) → l.takeWhile p = l := by
  intro l
  induction l with
  | nil => intro _; rfl
  | cons x t ih =>
      intro h
      rw [List.takeWhile_cons, if_pos (h x (by simp)), ih (fun a ha => h a (by simp [ha]))]

theorem dropWhile_eq_nil_of {α : Type} (p : α → Bool) :
    ∀ (l : List α), (∀ a ∈ l, p a = true) → l.dropWhile p = [] := by
  intro l
  induction l with
  | nil => intro _; rfl
  | cons x t ih =>
      intro h
      rw [List.dropWhile_cons, if_pos (h x (by simp))]
      exact ih (fun a ha => h a (by simp [ha]))

/-- On an all-low signal the spec patching rule sees a single low run of length
`s.length` and patches it exactly when that length is at most the gap. -/
theorem specPatchSignal_all_low (s : List ℤ) (c : ℤ) (g : ℚ) (hs : s ≠ [])
    (hlow : ∀ v ∈ s, v ≤ c) :
    specPatchSignal c g s =
      if (s.length : ℚ) ≤ g then List.replicate s.length (c + 1) else s := by
  rcases List.exists_cons_of_ne_nil hs with ⟨x, xs, rfl⟩
  rw [specPatchSignal_cons]
  have hxc : decide (x > c) = false := decide_eq_false (not_lt.mpr (hlow x (by simp)))
  have hall : ∀ v ∈ x :: xs, (fun v => decide (v > c) == decide (x > c)) v = true := by
    intro v hv
    have hvc : decide (v > c) = false := decide_eq_false (not_lt.mpr (hlow v hv))
    show (decide (v > c) == decide (x > c)) = true
    rw [hvc, hxc]
    rfl
  rw [takeWhile_eq_self_of _ (x :: xs) hall, dropWhile_eq_nil_of _ (x :: xs) hall,
    specPatchSignal_nil, List.append_nil, hxc]
  simp only [eq_self_iff_true, true_and]

theorem rawMask_all_low (s : List ℤ) (c : ℤ) (hlow : ∀ v ∈ s, v ≤ c) :
    rawMask c s = List.replicate s.length false := by
  rw [rawMask, List.eq_replicate_iff]
  refine ⟨List.length_map .., fun b hb => ?_⟩
  rcases List.mem_map.mp hb with ⟨v, hv, rfl⟩
  exact decide_eq_false (not_lt.mpr (hlow v hv))

theorem rawMask_replicate_high (c : ℤ) (k : ℕ) :
    rawMask c (List.replicate k (c + 1)) = List.replicate k true := by
  rw [rawMask, List.map_replicate, decide_eq_true (lt_add_one c)]

/-! `get_bark_fraction` unfolding lemmas. -/

theorem get_bark_fraction_nonpos (s : List ℤ) (c : ℤ) (g : ℚ) (hs : s ≠ []) (hg : g ≤ 0) :
    get_bark_fraction s c g = .ok ((countHigh s c : ℚ) / (s.length : ℚ)) := by
  have hne : ¬ (s.length = 0) := by
    simp only [List.length_eq_zero]
    exact hs
  rw [get_bark_fraction, if_pos hg, if_neg hne]
  exact hs

theorem get_bark_fraction_pos (s : List ℤ) (c : ℤ) (g : ℚ) (hs : s ≠ []) (hg : 0 < g) :
    get_bark_fraction s c g =
      .ok ((countHigh (patch_signal s c (g * 8000)) c : ℚ) / (s.length : ℚ)) := by
  rcases List.exists_cons_of_ne_nil hs with ⟨x, xs, rfl⟩
  have hconv : g / (0.000125 : ℚ) = g * 8000 := by
    rw [div_eq_mul_inv, show (0.000125 : ℚ)⁻¹ = 8000 by norm_num]
  have hlen : (patch_signal (x :: xs) c (g * 8000)).length = (x :: xs).length :=
    patch_signal_length (x :: xs) c (g * 8000) (by simp)
  have hne : ¬ ((patch_signal (x :: xs) c (g * 8000)).length = 0) := by
    rw [hlen]
    simp only [List.length_cons]
    omega
  rw [get_bark_fraction, if_neg (not_le.mpr hg)]
  · simp only [hconv]
    rw [if_neg hne, hlen]
  · simp

/-! `linspace`, `read_sound_file` and `analyze_file_core` lemmas. -/

theorem linspace_one (start stop : ℚ) : linspace start stop 1 = [start] := by
  simp [linspace]

theorem linspace_getLast (q : ℚ) (num : ℕ) (h : 2 ≤ num) :
    (linspace 0 q num).getLast? = some q := by
  rcases Nat.exists_eq_add_of_le h with ⟨m, rfl⟩
  have h0 : 2 + m ≠ 0 := by omega
  have h1 : 2 + m ≠ 1 := by omega
  rw [linspace, if_neg h0, if_neg h1]
  have hr : 2 + m = (1 + m) + 1 := by omega
  rw [hr, List.range_succ, List.map_append, List.map_cons, List.map_nil,
    List.getLast?_concat]
  have hsub : (1 + m + 1 - 1 : ℕ) = 1 + m := by omega
  rw [hsub]
  have hm0 : ((1 + m : ℕ) : ℚ) ≠ 0 := Nat.cast_ne_zero.mpr (by omega)
  rw [zero_add, sub_zero, mul_div_cancel_right₀ q hm0]

theorem read_sound_file_stereo (w : WavFile) (h : w.nchannels = 2) :
    read_sound_file w = .error (.valueError "Only mono files supported.") := by
  rw [read_sound_file, if_pos h]

theorem analyze_file_core_stereo (w : WavFile) (c : ℤ) (g : ℚ) (h : w.nchannels = 2) :
    analyze_file_core w c g = .error (.valueError "Only mono files supported.") := by
  rw [analyze_file_core, read_sound_file_stereo w h]

theorem analyze_file_core_ok (w : WavFile) (c : ℤ) (g : ℚ) (time : List ℚ)
    (signal : List ℤ) (total f : ℚ)
    (h1 : read_sound_file w = .ok (time, signal))
    (h2 : time.getLast? = some total)
    (h3 : get_bark_fraction signal c g = .ok f) :
    analyze_file_core w c g = .ok (total, total * f) := by
  simp only [analyze_file_core, h1, h2, h3]

/-- The value of the per-file analysis at `max_gap = 0` on a mono file with at
least one sample: `total_time` is the last entry of the linspace time axis,
`N / r` for `N ≥ 2` samples and `0` for a single sample. -/
theorem analyze_file_core_eq (w : WavFile) (c : ℤ) (hch : w.nchannels ≠ 2)
    (hlen : 1 ≤ w.frames.length) :
    analyze_file_core w c 0 =
      .ok (if w.frames.length = 1 then 0 else (w.frames.length : ℚ) / (w.framerate : ℚ),
        (if w.frames.length = 1 then 0 else (w.frames.length : ℚ) / (w.framerate : ℚ)) *
          ((countHigh (w.frames.map absInt16) c : ℚ) / (w.frames.length : ℚ))) := by
  have hmap : (w.frames.map absInt16).length = w.frames.length := List.length_map ..
  have hsne : w.frames.map absInt16 ≠ [] := by
    intro h
    rw [h] at hmap
    simp only [List.length_nil] at hmap
    omega
  have hread : read_sound_file w =
      .ok (linspace 0 (((w.frames.map absInt16).length : ℚ) / (w.framerate : ℚ))
        (w.frames.map absInt16).length, w.frames.map absInt16) := by
    rw [read_sound_file, if_neg hch]
  have hfrac : get_bark_fraction (w.frames.map absInt16) c 0 =
      .ok ((countHigh (w.frames.map absInt16) c : ℚ) /
        ((w.frames.map absInt16).length : ℚ)) :=
    get_bark_fraction_nonpos _ c 0 hsne le_rfl
  by_cases hone : w.frames.length = 1
  · rw [if_pos hone]
    have h2 : (linspace 0 (((w.frames.map absInt16).length : ℚ) / (w.framerate : ℚ))
        (w.frames.map absInt16).length).getLast? = some 0 := by
      rw [hmap, hone, linspace_one]
      rfl
    rw [analyze_file_core_ok w c 0 _ _ 0 _ hread h2 hfrac, hmap]
  · rw [if_neg hone]
    have h2len : 2 ≤ w.frames.length := by omega
    have h2 : (linspace 0 (((w.frames.map absInt16).length : ℚ) / (w.framerate : ℚ))
        (w.frames.map absInt16).length).getLast? =
        some ((w.frames.length : ℚ) / (w.framerate : ℚ)) := by
      rw [hmap]
      exact linspace_getLast _ _ h2len
    rw [analyze_file_core_ok w c 0 _ _ _ _ hread h2 hfrac, hmap]

/-! Claims. -/

/-- C1: for every non-empty signal, every cutoff, and every `max_gap ≥ 1` (in
samples), `patch_signal` partitions the sequence into maximal contiguous runs of
identical high/low classification (high = strictly greater than the cutoff) and
reclassifies as high every low run whose length is at most `max_gap`, leaves low
every longer low run, and never alters a high run; boundary low runs obey the
same length rule (`specPatchMask` transcribes exactly that rule). -/
theorem c1_patch_signal_runs (s : List ℤ) (c : ℤ) (g : ℚ) (hs : s ≠ []) ( _hg : 1 ≤ g) :
    rawMask c (patch_signal s c g) = specPatchMask g (rawMask c s) := by
  rw [patch_signal_eq_specPatchSignal s c g hs]
  exact rawMask_specPatchSignal c g s.length s le_rfl

theorem c1_witness :
    rawMask 100 (patch_signal [0, 200] 100 2) = specPatchMask 2 (rawMask 100 [0, 200]) :=
  c1_patch_signal_runs [0, 200] 100 2 (by simp) (by norm_num)

/-- C2 counterexample: a mono file with `N = 2` samples at rate `r = 1` gets
`total_time = time[-1] = N/r = 2`, while the claim predicts
`(N - 1) * (1/r) = 1`. -/
theorem c2_counterexample :
    analyze_file_core ⟨1, 1, [0, 0]⟩ 5000 0 = .ok (2, 0) ∧ (2 : ℚ) ≠ (2 - 1) * (1 / 1) := by
  constructor
  · norm_num [analyze_file_core, read_sound_file, get_bark_fraction, linspace, absInt16,
      countHigh, List.range, List.range.loop, List.countP, List.countP.go, List.getLast?]
  · norm_num

/-- C2 amended: the per-file `total_time` is the last linspace timestamp,
`N / r` when the decoded signal has `N ≥ 2` samples and `0` when `N = 1`
(numpy's `linspace(0, N/r, N)` ends at `N/r`, so the step is `N/((N-1)r)`,
not `1/r`). -/
theorem c2_total_time_amended (w : WavFile) (c : ℤ) (hch : w.nchannels ≠ 2)
    (hN : 1 ≤ w.frames.length) ( _hr : 1 ≤ w.framerate) :
    analyze_file_core w c 0 =
      .ok (if w.frames.length = 1 then 0 else (w.frames.length : ℚ) / (w.framerate : ℚ),
        (if w.frames.length = 1 then 0 else (w.frames.length : ℚ) / (w.framerate : ℚ)) *
          ((countHigh (w.frames.map absInt16) c : ℚ) / (w.frames.length : ℚ))) :=
  analyze_file_core_eq w c hch hN

theorem c2_amended_witness :
    analyze_file_core ⟨1, 2, [0, 0, 0]⟩ 5000 0 =
      .ok (if (⟨1, 2, [0, 0, 0]⟩ : WavFile).frames.length = 1 then 0
          else ((⟨1, 2, [0, 0, 0]⟩ : WavFile).frames.length : ℚ) /
            ((⟨1, 2, [0, 0, 0]⟩ : WavFile).framerate : ℚ),
        (if (⟨1, 2, [0, 0, 0]⟩ : WavFile).frames.length = 1 then 0
          else ((⟨1, 2, [0, 0, 0]⟩ : WavFile).frames.length : ℚ) /
            ((⟨1, 2, [0, 0, 0]⟩ : WavFile).framerate : ℚ)) *
          ((countHigh ((⟨1, 2, [0, 0, 0]⟩ : WavFile).frames.map absInt16) 5000 : ℚ) /
            ((⟨1, 2, [0, 0, 0]⟩ : WavFile).frames.length : ℚ))) :=
  c2_total_time_amended ⟨1, 2, [0, 0, 0]⟩ 5000 (by decide) (by decide) (by decide)

/-- C3 counterexample: with rate `r = 1` and `max_gap = 1` second, the claimed
conversion would hand the classifier a tolerance of `1 * 1 = 1` sample, leaving
the interior low run of `[200, 0, 0, 200]` (cutoff 100) unpatched — fraction
`1/2` — while the code divides by the hard-coded step 0.000125 s, hands over
8000 samples, patches the run and returns fraction `1`. -/
theorem c3_counterexample :
    get_bark_fraction [200, 0, 0, 200] 100 1 = .ok 1 ∧
      get_bark_fraction_atRate 1 [200, 0, 0, 200] 100 1 = .ok (1 / 2) ∧
      get_bark_fraction [200, 0, 0, 200] 100 1 ≠
        get_bark_fraction_atRate 1 [200, 0, 0, 200] 100 1 := by
  have h1 : get_bark_fraction [200, 0, 0, 200] 100 1 = .ok 1 := by
    norm_num [get_bark_fraction, patch_signal, whereTrueAux, diffList, patchLoop, setGaps,
      countHigh, List.zipWith, List.dropLast, List.range', List.countP, List.countP.go]
  have h2 : get_bark_fraction_atRate 1 [200, 0, 0, 200] 100 1 = .ok (1 / 2) := by
    norm_num [get_bark_fraction_atRate, patch_signal, whereTrueAux, diffList, patchLoop,
      setGaps, countHigh, List.zipWith, List.dropLast, List.range', List.countP,
      List.countP.go]
  refine ⟨h1, h2, ?_⟩
  rw [h1, h2]
  intro hcon
  have hq : (1 : ℚ) = 1 / 2 := by injection hcon
  norm_num at hq

/-- C3 amended: `get_bark_fraction` converts seconds to samples with the
hard-coded 0.000125 s step: the tolerance passed to `patch_signal` is
`max_gap / 0.000125 = max_gap * 8000`, regardless of the file's own rate. -/
theorem c3_gap_conversion_amended (s : List ℤ) (c : ℤ) (g : ℚ) (hs : s ≠ []) (hg : 0 < g) :
    get_bark_fraction s c g =
      .ok ((countHigh (patch_signal s c (g * 8000)) c : ℚ) / (s.length : ℚ)) :=
  get_bark_fraction_pos s c g hs hg

theorem c3_amended_witness :
    get_bark_fraction [200, 0, 0, 200] 100 1 =
      .ok ((countHigh (patch_signal [200, 0, 0, 200] 100 (1 * 8000)) 100 : ℚ) /
        (([200, 0, 0, 200] : List ℤ).length : ℚ)) :=
  c3_gap_conversion_amended [200, 0, 0, 200] 100 1 (by simp) (by norm_num)

/-- C4 counterexample: on the empty signal there is no explicit "empty signal"
error: with `max_gap = 0` the fraction computation reaches the division by
`len(signal) = 0` (ZeroDivisionError), and with `max_gap = 1` `patch_signal`
fails at `signal[0]` (IndexError). -/
theorem c4_counterexample :
    get_bark_fraction [] 0 0 = .error .zeroDivision ∧
      get_bark_fraction [] 0 1 = .error .indexError := by
  constructor <;> rfl

/-- C4 amended: the classifier does not special-case the empty sequence: for
every `max_gap ≤ 0` it proceeds to the division by zero, and for every
`max_gap > 0` it hits the IndexError of `signal[0]` inside `patch_signal`;
no "empty signal" error exists. -/
theorem c4_empty_signal_amended (c : ℤ) (g : ℚ) :
    (g ≤ 0 → get_bark_fraction [] c g = .error .zeroDivision) ∧
      (0 < g → get_bark_fraction [] c g = .error .indexError) := by
  constructor
  · intro hg
    rw [get_bark_fraction, if_pos hg]
    simp
  · intro hg
    rw [get_bark_fraction, if_neg (not_le.mpr hg)]

theorem c4_amended_witness :
    get_bark_fraction [] 5000 0 = .error .zeroDivision ∧
      get_bark_fraction [] 5000 1 = .error .indexError :=
  ⟨(c4_empty_signal_amended 5000 0).1 le_rfl, (c4_empty_signal_amended 5000 1).2 one_pos⟩

/-- C5: with `max_gap = 0` classification is the identity on the raw threshold
mask: `get_bark_fraction` returns exactly the count of samples strictly above
the cutoff divided by the number of samples, and no patching runs. -/
theorem c5_zero_gap_identity (s : List ℤ) (c : ℤ) (hs : s ≠ []) :
    get_bark_fraction s c 0 = .ok ((countHigh s c : ℚ) / (s.length : ℚ)) :=
  get_bark_fraction_nonpos s c 0 hs le_rfl

theorem c5_witness :
    get_bark_fraction [1, 200] 100 0 =
      .ok ((countHigh [1, 200] 100 : ℚ) / (([1, 200] : List ℤ).length : ℚ)) :=
  c5_zero_gap_identity [1, 200] 100 (by simp)

/-- C6: patching can only add high samples: the number of samples classified
high after `patch_signal` is at least the number strictly above the cutoff in
the input. -/
theorem c6_patch_monotone (s : List ℤ) (c : ℤ) (g : ℚ) (hs : s ≠ []) ( _hg : 0 ≤ g) :
    countHigh s c ≤ countHigh (patch_signal s c g) c :=
  countHigh_patch_ge s c g hs

theorem c6_witness :
    countHigh [0, 200] 100 ≤ countHigh (patch_signal [0, 200] 100 2) 100 :=
  c6_patch_monotone [0, 200] 100 2 (by simp) (by norm_num)

/-- C7: an all-low signal is a single low run of length `s.length`: with
`max_gap ≥ 1` the patched classification is entirely high iff
`s.length ≤ max_gap`, and stays entirely low when `max_gap < s.length`. -/
theorem c7_all_low (s : List ℤ) (c : ℤ) (g : ℚ) (hs : s ≠ [])
    (hlow : ∀ v ∈ s, v ≤ c) ( _hg : 1 ≤ g) :
    ((rawMask c (patch_signal s c g) = List.replicate s.length true) ↔
      ((s.length : ℚ) ≤ g)) ∧
    ((g : ℚ) < (s.length : ℚ) →
      rawMask c (patch_signal s c g) = List.replicate s.length false) := by
  rw [patch_signal_eq_specPatchSignal s c g hs, specPatchSignal_all_low s c g hs hlow]
  by_cases hcase : (s.length : ℚ) ≤ g
  · rw [if_pos hcase, rawMask_replicate_high]
    exact ⟨⟨fun _ => hcase, fun _ => rfl⟩, fun hlt => absurd hcase (not_le.mpr hlt)⟩
  · rw [if_neg hcase, rawMask_all_low s c hlow]
    refine ⟨⟨fun heq => ?_, fun hle => absurd hle hcase⟩, fun _ => rfl⟩
    exfalso
    rcases List.exists_cons_of_ne_nil hs with ⟨x, xs, rfl⟩
    simp only [List.length_cons, List.replicate_succ] at heq
    injection heq with h1 _
    exact Bool.false_ne_true h1

theorem c7_witness :
    ((rawMask 100 (patch_signal [0, 0] 100 3) =
        List.replicate ([0, 0] : List ℤ).length true) ↔
      ((([0, 0] : List ℤ).length : ℚ) ≤ 3)) ∧
    ((3 : ℚ) < ((([0, 0] : List ℤ).length : ℚ)) →
      rawMask 100 (patch_signal [0, 0] 100 3) =
        List.replicate ([0, 0] : List ℤ).length false) :=
  c7_all_low [0, 0] 100 3 (by simp) (by decide) (by norm_num)

/-- C8: a two-channel (stereo) file is rejected by `read_sound_file` with the
unsupported error whatever its frames are, and the whole per-file analysis
returns that error: no analysis result is produced. -/
theorem c8_stereo_rejected (w : WavFile) (c : ℤ) (g : ℚ) (h : w.nchannels = 2) :
    read_sound_file w = .error (.valueError "Only mono files supported.") ∧
      analyze_file_core w c g = .error (.valueError "Only mono files supported.") :=
  ⟨read_sound_file_stereo w h, analyze_file_core_stereo w c g h⟩

theorem c8_witness :
    read_sound_file ⟨2, 8000, [1, 2, 3]⟩ =
        .error (.valueError "Only mono files supported.") ∧
      analyze_file_core ⟨2, 8000, [1, 2, 3]⟩ 5000 5 =
        .error (.valueError "Only mono files supported.") :=
  c8_stereo_rejected ⟨2, 8000, [1, 2, 3]⟩ 5000 5 rfl

/-- C9: every element of the `patch_signal` output is either exactly its
original input value or exactly `cutoff + 1`: samples strictly above the cutoff
are returned unchanged, and an output element that differs from its input is
exactly `cutoff + 1` and replaced a sample that was at most the cutoff. -/
theorem c9_patch_values (s : List ℤ) (c : ℤ) (g : ℚ) (hs : s ≠ []) ( _hg : 1 ≤ g) :
    List.Forall₂
      (fun a b => (b = a ∨ b = c + 1) ∧ (c < a → b = a) ∧ (b ≠ a → b = c + 1 ∧ a ≤ c))
      s (patch_signal s c g) :=
  patch_signal_forall₂ s c g hs

theorem c9_witness :
    List.Forall₂
      (fun a b => (b = a ∨ b = 100 + 1) ∧ (100 < a → b = a) ∧
        (b ≠ a → b = 100 + 1 ∧ a ≤ 100))
      [0, 200] (patch_signal [0, 200] 100 2) :=
  c9_patch_values [0, 200] 100 2 (by simp) (by norm_num)

/-- C10: if the target file exists and overwrite is false, `write_csv` appends
exactly the given rows with no header and leaves the caller's `rows` list
unmodified; otherwise (fresh file, or overwrite) it pushes the header
`["timestamp", "total_time", "bark_time"]` onto the caller's rows — an
observable mutation — and writes header followed by the rows to a fresh file. -/
theorem c10_write_csv (rows content : List (List String)) (ov : Bool) :
    write_csv rows (some content) false = (content ++ rows, rows) ∧
      write_csv rows none ov = (csvHeader :: rows, csvHeader :: rows) ∧
      write_csv rows (some content) true = (csvHeader :: rows, csvHeader :: rows) := by
  refine ⟨?_, ?_, ?_⟩ <;> simp [write_csv]

end SoundtrackAnalyzer
